import Mathlib

/-!
Verification of the flat-file document store in
`src/exercises/exercise-15/database.ts`.

The store keeps one record per line of a log file: a one-character tag
(`E` live, `D` tombstoned) followed by the entity serialized as JSON.
Mutations (`insert`, `delete`) go through `flush`, which reloads the whole
file, flips the liveness tag of records whose identifier is in the delete
set, appends the new records and rewrites the file.  `find` loads the live
records and applies the query pipeline (`$and`, `$or`, `$text`, plain field
predicates), then sorting and projection.

Entities are shallowly embedded as association lists from field names to
values; JS numbers are modelled as `Int` (all identifiers and field values
exercised by the program are integers or strings), JS strings as `String`.
`JSON.stringify`/`JSON.parse` (standard-library code, not repository code)
are modelled by an executable printer/parser pair for this value type; the
printer escapes the quote, backslash and newline characters exactly as far
as needed for the log-line discipline (real JSON additionally escapes other
control characters, which no claim exercises).
-/

namespace DB

/-- A JS value stored in an entity field: a number (modelled as `Int`) or a
string. -/
inductive Value where
  | num (n : Int)
  | str (s : String)
deriving DecidableEq

/-- An entity is a JS object: an association list from field names to
values, in property-insertion order. -/
abbrev Entity := List (String × Value)

/-- JS property access `entity[field]`: the first binding of the field, or
`none` for `undefined`. -/
def lookupField (e : Entity) (k : String) : Option Value :=
  (e.find? (fun kv => kv.1 = k)).map (fun kv => kv.2)

/-! ## Record codec: the model of `JSON.stringify` / `JSON.parse`
as used by `toLine` and `loadAll`. -/

/-- String escaping performed by `JSON.stringify` (restricted to the three
characters that matter for the line discipline). -/
def escapeChar (c : Char) : List Char :=
  if c = '"' then ['\\', '"']
  else if c = '\\' then ['\\', '\\']
  else if c = '\n' then ['\\', 'n']
  else [c]

/-- Escape a whole string. -/
def escapeString : List Char → List Char
  | [] => []
  | c :: cs => escapeChar c ++ escapeString cs

/-- The decimal digit character for `d < 10`. -/
def digitToChar (d : Nat) : Char :=
  if d = 0 then '0' else if d = 1 then '1' else if d = 2 then '2'
  else if d = 3 then '3' else if d = 4 then '4' else if d = 5 then '5'
  else if d = 6 then '6' else if d = 7 then '7' else if d = 8 then '8'
  else '9'

/-- Numeric value of a decimal digit character. -/
def charToDigit (c : Char) : Nat :=
  if c = '0' then 0 else if c = '1' then 1 else if c = '2' then 2
  else if c = '3' then 3 else if c = '4' then 4 else if c = '5' then 5
  else if c = '6' then 6 else if c = '7' then 7 else if c = '8' then 8
  else 9

/-- Decimal digits of `n`, most significant first (fuel-indexed so that the
kernel can evaluate it; `natToChars` supplies sufficient fuel). -/
def natToCharsAux : Nat → Nat → List Char
  | 0, _ => []
  | fuel + 1, n =>
    if n < 10 then [digitToChar n]
    else natToCharsAux fuel (n / 10) ++ [digitToChar (n % 10)]

/-- Decimal representation of a natural number, as `JSON.stringify` prints
it. -/
def natToChars (n : Nat) : List Char := natToCharsAux (n + 1) n

/-- Decimal representation of an integer. -/
def intToChars (i : Int) : List Char :=
  if i < 0 then '-' :: natToChars (-i).toNat else natToChars i.toNat

/-- `JSON.stringify` of a single value. -/
def serializeValue : Value → List Char
  | .num n => intToChars n
  | .str s => '"' :: (escapeString s.data ++ ['"'])

/-- `JSON.stringify` of one `"key":value` pair. -/
def serializeField (kv : String × Value) : List Char :=
  '"' :: (escapeString kv.1.data ++ '"' :: ':' :: serializeValue kv.2)

/-- `JSON.stringify` of the comma-separated field list of an object. -/
def serializeFields : Entity → List Char
  | [] => []
  | [kv] => serializeField kv
  | kv :: rest => serializeField kv ++ ',' :: serializeFields rest

/-- `JSON.stringify` of an entity: `{"k":v,...}` with no whitespace, fields
in insertion order. -/
def serializeEntity (e : Entity) : List Char :=
  '{' :: (serializeFields e ++ ['}'])

/-- Inverse of the escape map: the character denoted by `c` after a
backslash. -/
def unescChar (c : Char) : Char :=
  if c = 'n' then '\n' else c

/-- Parse the body of a JSON string (after the opening quote) up to the
closing quote; returns the decoded characters and the remaining input. -/
def parseString : List Char → Option (List Char × List Char)
  | [] => none
  | c :: rest =>
    if c = '"' then some ([], rest)
    else if c = '\\' then
      match rest with
      | [] => none
      | d :: rest2 =>
        match parseString rest2 with
        | none => none
        | some (s, r) => some (unescChar d :: s, r)
    else
      match parseString rest with
      | none => none
      | some (s, r) => some (c :: s, r)

/-- Split off the maximal leading run of decimal digits. -/
def takeDigits : List Char → List Char × List Char
  | [] => ([], [])
  | c :: cs =>
    if c.isDigit then
      let r := takeDigits cs
      (c :: r.1, r.2)
    else ([], c :: cs)

/-- Numeric value of a digit string (most significant first). -/
def charsToNat (cs : List Char) : Nat :=
  cs.foldl (fun a c => a * 10 + charToDigit c) 0

/-- Parse a nonempty run of digits as a natural number. -/
def parseNatNum (cs : List Char) : Option (Nat × List Char) :=
  let p := takeDigits cs
  if p.1 = [] then none else some (charsToNat p.1, p.2)

/-- The next character of `rest` (if any) is not a digit, so a digit run
ends exactly at `rest`. -/
def headNotDigit (rest : List Char) : Prop :=
  match rest with
  | [] => True
  | c :: _ => c.isDigit = false

/-- Parse a JSON value (string or integer). -/
def parseValue (cs : List Char) : Option (Value × List Char) :=
  match cs with
  | [] => none
  | c :: rest =>
    if c = '"' then
      match parseString rest with
      | none => none
      | some (s, r) => some (.str (String.mk s), r)
    else if c = '-' then
      match parseNatNum rest with
      | none => none
      | some (n, r) => some (.num (-(n : Int)), r)
    else
      match parseNatNum (c :: rest) with
      | none => none
      | some (n, r) => some (.num (n : Int), r)

/-- Parse a nonempty `"k":v(,"k":v)*}` field list (the fuel bounds the
number of fields; callers pass the input length). -/
def parseFields : Nat → List Char → Option (Entity × List Char)
  | fuel, cs =>
    match cs with
    | [] => none
    | c :: rest =>
      if c = '"' then
        match parseString rest with
        | none => none
        | some (key, r1) =>
          match r1 with
          | [] => none
          | c1 :: r2 =>
            if c1 = ':' then
              match parseValue r2 with
              | none => none
              | some (v, r3) =>
                match r3 with
                | [] => none
                | c3 :: r4 =>
                  if c3 = ',' then
                    match fuel with
                    | 0 => none
                    | fuel' + 1 =>
                      match parseFields fuel' r4 with
                      | none => none
                      | some (fs, r5) => some ((String.mk key, v) :: fs, r5)
                  else if c3 = '}' then some ([(String.mk key, v)], r4)
                  else none
            else none
      else none

/-- Parse a JSON object, returning the entity and the remaining input. -/
def parseEntity (cs : List Char) : Option (Entity × List Char) :=
  match cs with
  | [] => none
  | c :: rest =>
    if c = '{' then
      match rest with
      | [] => none
      | d :: rest2 =>
        if d = '}' then some (([] : Entity), rest2)
        else parseFields rest.length rest
    else none

/-- The model of `JSON.parse` on a full line body: the parse must consume
the whole input, otherwise the parse fails (an exception in the source). -/
def jsonParse (cs : List Char) : Option Entity :=
  match parseEntity cs with
  | some (e, []) => some e
  | _ => none

/-! ## Log store -/

/-- `Deletable<Entity>`: an entity together with its `exists` liveness
flag. -/
structure Deletable where
  entity : Entity
  «exists» : Bool
deriving DecidableEq

/-- `toLine` (local function of `flush`): the record's log line —
`E`/`D` tag followed by the JSON of the entity without the flag. -/
def toLine (d : Deletable) : List Char :=
  (if d.«exists» then 'E' else 'D') :: serializeEntity d.entity

/-- Decoding of one raw log line, per `loadAll`:
`{...JSON.parse(raw.slice(1)), exists: raw[0] === 'E'}`.  A line whose
body is not a JSON object makes the whole load fail (`JSON.parse`
throws). -/
def decodeLine (raw : List Char) : Option Deletable :=
  match jsonParse (raw.drop 1) with
  | some e => some ⟨e, raw.head? = some 'E'⟩
  | none => none

/-- `String.prototype.split(sep)` for a one-character separator. -/
def splitOnChar (sep : Char) : List Char → List (List Char)
  | [] => [[]]
  | c :: cs =>
    if c = sep then [] :: splitOnChar sep cs
    else
      match splitOnChar sep cs with
      | [] => [[c]]
      | l :: ls => (c :: l) :: ls

/-- `Database.loadAll`: split the file on newlines, drop empty lines,
decode every line (failure of any line fails the load). -/
def loadAll (file : List Char) : Option (List Deletable) :=
  ((splitOnChar '\n' file).filter (fun l => l ≠ [])).mapM decodeLine

/-- The live entities of a record list: `exists` records, flag stripped. -/
def liveEntities (recs : List Deletable) : List Entity :=
  (recs.filter (fun d => d.«exists»)).map (fun d => d.entity)

/-- `Database.load`: the materialized view — live records only, flag
stripped. -/
def load (file : List Char) : Option (List Entity) :=
  (loadAll file).map liveEntities

/-- The record list produced inside `flush`'s lock callback: existing
records with the tags of records whose `_id` is among the deleted
identifiers flipped to tombstoned, followed by the inserts tagged live. -/
def flushRecords (all : List Deletable) (inserts deletes : List Entity) :
    List Deletable :=
  let deletedIds := deletes.map (fun e => lookupField e "_id")
  (all.map (fun d =>
    if lookupField d.entity "_id" ∈ deletedIds then ⟨d.entity, false⟩ else d))
    ++ inserts.map (fun e => ⟨e, true⟩)

/-- The file contents written by `flush`:
`records.reduce((acc, e) => acc + "\n" + toLine(e), "")` — every line is
preceded by a newline, so the file starts with an empty line. -/
def encodeFile (recs : List Deletable) : List Char :=
  recs.foldl (fun acc d => acc ++ '\n' :: toLine d) []

/-- `Database.flush`: reload the whole file, flip deleted records, append
inserts, rewrite the file. -/
def flush (file : List Char) (inserts deletes : List Entity) :
    Option (List Char) :=
  (loadAll file).map (fun all => encodeFile (flushRecords all inserts deletes))

/-! ## Query model -/

/-- `QueryParam<Prop>`: one field predicate. -/
inductive QueryParam where
  | eq (v : Value)
  | gt (v : Value)
  | lt (v : Value)
  | inList (vs : List Value)
deriving DecidableEq

/-- `Queryable<Entity>`: a sub-query of `$and`/`$or` — field predicates
only, no nested operators (per the TypeScript type). -/
abbrev Subquery := List (String × QueryParam)

/-- The value bound to one key of a query object: a field predicate, the
sub-query list of `$and`/`$or`, or the `$text` string. -/
inductive QueryVal where
  | param (p : QueryParam)
  | subs (qs : List Subquery)
  | text (t : String)
deriving DecidableEq

/-- `Query<Entity>`: a JS object, modelled as its `Object.entries` list in
insertion order. -/
abbrev Query := List (String × QueryVal)

/-- Read a `$and`/`$or` operator key off a query (property access on the
query object). -/
def getSubs (key : String) (q : Query) : Option (List Subquery) :=
  match q.find? (fun kv => kv.1 = key) with
  | some (_, .subs qs) => some qs
  | _ => none

/-- Read the `$text` operator off a query. -/
def getTextVal (q : Query) : Option String :=
  match q.find? (fun kv => kv.1 = "$text") with
  | some (_, .text t) => some t
  | _ => none

/-- A sub-query, viewed again as a query object (as when the source passes
a `Queryable` to `queryMatches`/`filterParams`). -/
def subToQuery (s : Subquery) : Query :=
  s.map (fun kv => (kv.1, QueryVal.param kv.2))

/-- JS `>` on two field values (same-type comparisons; a mixed-type
comparison — excluded by the TypeScript types — is modelled as false). -/
def jsGt : Value → Value → Bool
  | .num a, .num b => b < a
  | .str a, .str b => decide (b < a)
  | _, _ => false

/-- JS `<` on two field values. -/
def jsLt : Value → Value → Bool
  | .num a, .num b => a < b
  | .str a, .str b => decide (a < b)
  | _, _ => false

/-- JS `>` where either side may be `undefined` (always false then). -/
def jsGtO : Option Value → Option Value → Bool
  | some a, some b => jsGt a b
  | _, _ => false

/-- JS `<` where either side may be `undefined`. -/
def jsLtO : Option Value → Option Value → Bool
  | some a, some b => jsLt a b
  | _, _ => false

/-- `String.prototype.startsWith` on the underlying character lists
(executable model of the standard library's `startsWith`). -/
def strStartsWith : List Char → List Char → Bool
  | _, [] => true
  | [], _ :: _ => false
  | c :: cs, d :: ds => c = d && strStartsWith cs ds

/-- The `switch (matcher)` of `queryMatches` applied to the entity's field
value (`none` = the field is absent, i.e. `undefined`). -/
def evalParam (p : QueryParam) (actual : Option Value) : Bool :=
  match p with
  | .eq v => actual = some v
  | .gt v => jsGtO actual (some v)
  | .lt v => jsLtO actual (some v)
  | .inList vs =>
    match actual with
    | some a => vs.contains a
    | none => false

/-- `Database.queryMatches`: fold over the query's entries starting from
`true`; a falsy accumulator or a `$`-prefixed key leaves the accumulator
unchanged, otherwise the entry's predicate decides.  (A non-predicate
value under a non-`$` key is untypeable in the source; it is modelled as a
non-match.) -/
def queryMatches (q : Query) (e : Entity) : Bool :=
  q.foldl (fun acc kv =>
    if !acc || strStartsWith kv.1.data "$".data then acc
    else
      match kv.2 with
      | .param p => evalParam p (lookupField e kv.1)
      | _ => false) true

/-- `Database.filterParams`. -/
def filterParams (q : Query) (es : List Entity) : List Entity :=
  es.filter (fun e => queryMatches q e)

/-- `Database.filterAnd`: each `$and` sub-query is applied as a plain
predicate filter in sequence. -/
def filterAnd (q : Query) (es : List Entity) : List Entity :=
  match getSubs "$and" q with
  | some subs =>
    subs.foldl (fun acc sub => filterParams (subToQuery sub) acc) es
  | none => es

/-- `Database.filterOr`: keep an entity when some `$or` sub-query fully
matches it (`$or.find(sub => queryMatches(sub, entity))` is truthy). -/
def filterOr (q : Query) (es : List Entity) : List Entity :=
  match getSubs "$or" q with
  | some subs =>
    es.filter (fun e =>
      (subs.find? (fun sub => queryMatches (subToQuery sub) e)).isSome)
  | none => es

/-! ### `$text` search -/

/-- A regex word character (`\w`): letter, digit or underscore. -/
def isWordChar (c : Char) : Bool := c.isAlphanum || c = '_'

/-- Whether the character at position `pos` of `hay` is a word character
(out of range counts as not). -/
def wordCharAt (hay : List Char) (pos : Nat) : Bool :=
  match hay.drop pos with
  | [] => false
  | c :: _ => isWordChar c

/-- The regex `\b` word-boundary assertion at position `i` (between
characters `i - 1` and `i`). -/
def boundaryAt (hay : List Char) (i : Nat) : Bool :=
  (if i = 0 then false else wordCharAt hay (i - 1)) != wordCharAt hay i

/-- Literal whole-word containment — the reading of "the field contains
the word as a whole-word match" used by the spec's `$text` sentence: the
word occurs literally at some position with a word boundary on both sides.
The source's actual test (`regexTest` below) interpolates the word into a
regular expression unescaped, so the two coincide only for
metacharacter-free words (`C7` relates them). -/
def wholeWordMatch (hay word : List Char) : Bool :=
  (List.range (hay.length + 1)).any (fun i =>
    ((hay.drop i).take word.length = word : Bool) &&
      boundaryAt hay i && boundaryAt hay (i + word.length))

/-- Character-wise `toLowerCase`. -/
def lowerData (cs : List Char) : List Char := cs.map Char.toLower

/-- One atom of the interpolated pattern: a literal character or the `.`
wildcard. -/
inductive RegexAtom where
  | lit (c : Char)
  | dot
deriving DecidableEq

/-- Regular-expression operator characters (other than `.`) that this
model does not interpret. -/
def regexSpecial (c : Char) : Bool :=
  c ∈ ['\\', '^', '$', '*', '+', '?', '(', ')', '[', ']', '{', '}', '|']

/-- One character of the word, read as the regex engine reads the
interpolated pattern: `.` is the any-character wildcard, regex operator
characters are outside the modelled fragment (`none`: in the source such a
word either makes the constructor throw a SyntaxError — e.g. `(` — or
engages operator semantics this model does not cover, and no theorem
quantifies over such words), everything else is a literal. -/
def compileWordChar (c : Char) : Option RegexAtom :=
  if c = '.' then some RegexAtom.dot
  else if regexSpecial c then none
  else some (RegexAtom.lit c)

/-- The pattern denoted by a word of the `$text` string, when the word
lies in the modelled fragment. -/
def compileWord (w : List Char) : Option (List RegexAtom) :=
  w.mapM compileWordChar

/-- Whether one atom matches one character: a literal matches itself, `.`
matches every character except the line terminators. -/
def atomMatches : RegexAtom → Char → Bool
  | .lit a, c => c = a
  | .dot, c => !(c = '\n' || c = '\r' || c = '\u2028' || c = '\u2029')

/-- Whether the pattern matches a prefix of `cs` (every atom is one
character wide, so the window has the pattern's length). -/
def matchAtoms : List RegexAtom → List Char → Bool
  | [], _ => true
  | _ :: _, [] => false
  | a :: ps, c :: cs => atomMatches a c && matchAtoms ps cs

/-- `new RegExp("\\b" + word + "\\b").test(hay)` for a word of the
modelled fragment: the compiled pattern matches at some position with a
word boundary on both sides. -/
def regexTest (pat : List RegexAtom) (hay : List Char) : Bool :=
  (List.range (hay.length + 1)).any (fun i =>
    matchAtoms pat (hay.drop i) &&
      boundaryAt hay i && boundaryAt hay (i + pat.length))

/-- The `$text` test of one entity field, per the source's
`actual.match(new RegExp("\\b" + expected + "\\b"))`: the field must be a
string (the TypeScript types restrict the configured fields to string
fields) whose lowercased value is matched by the word's pattern with
boundaries on both sides.  A word outside the modelled pattern fragment
yields no match here (out of the model's scope — see
`compileWordChar`). -/
def textFieldMatches (e : Entity) (f : String) (w : List Char) : Bool :=
  match lookupField e f with
  | some (.str s) =>
    match compileWord w with
    | some pat => regexTest pat (lowerData s.data)
    | none => false
  | _ => false

/-- `Database.filterText`: keep entities for which every space-separated
word of the lowercased `$text` string matches, as a `\b`-delimited
pattern, some configured full-text-search field.  A missing or empty
(falsy) `$text` skips the stage. -/
def filterText (fts : List String) (q : Query) (es : List Entity) :
    List Entity :=
  match getTextVal q with
  | some t =>
    if t = "" then es
    else
      let words := splitOnChar ' ' (lowerData t.data)
      es.filter (fun e =>
        words.all (fun w => fts.any (fun f => textFieldMatches e f w)))
  | none => es

/-- `Database.filter`: the fixed pipeline
`$and` → `$or` → `$text` → plain field predicates. -/
def filterQuery (fts : List String) (q : Query) (es : List Entity) :
    List Entity :=
  filterParams q (filterText fts q (filterOr q (filterAnd q es)))

/-! ## Sorting and projection -/

/-- The comparator built by `Database.sort`: fold over the sort mapping's
entries; a decided (nonzero) accumulator or equal field values leave the
accumulator, otherwise `>`/`<` decide with the field's direction. -/
def compareEntities (spec : List (String × Int)) (a b : Entity) : Int :=
  spec.foldl (fun acc kv =>
    if acc ≠ 0 || lookupField a kv.1 = lookupField b kv.1 then acc
    else if jsGtO (lookupField a kv.1) (lookupField b kv.1) then kv.2
    else if jsLtO (lookupField a kv.1) (lookupField b kv.1) then -kv.2
    else 0) 0

/-- Insert into a sorted list, keeping `x` before later-arriving equal
elements. -/
def insertSorted (le : Entity → Entity → Bool) (x : Entity) :
    List Entity → List Entity
  | [] => [x]
  | y :: ys => if le x y then x :: y :: ys else y :: insertSorted le x ys

/-- Stable sort (insertion sort).  `Array.prototype.sort` is required to be
stable, and for a consistent comparator every stable sort produces the same
output, so this models the source's sort. -/
def sortStable (le : Entity → Entity → Bool) : List Entity → List Entity
  | [] => []
  | x :: xs => insertSorted le x (sortStable le xs)

/-- `Database.sort`: an absent sort option is the identity; otherwise sort
with the comparator (an entity precedes another when the comparator is
non-positive). -/
def sortEntities (spec : Option (List (String × Int)))
    (es : List Entity) : List Entity :=
  match spec with
  | none => es
  | some s => sortStable (fun a b => compareEntities s a b ≤ 0) es

/-- `Database.project`: an absent projection is the identity; otherwise
keep exactly the projected keys.  (A projected key absent from the entity
is dropped; the source would keep it with value `undefined`, a case the
TypeScript entity types exclude.) -/
def project (proj : Option (List String)) (es : List Entity) :
    List Entity :=
  match proj with
  | none => es
  | some keys =>
    es.map (fun e => keys.foldl (fun acc k =>
      match lookupField e k with
      | some v => acc ++ [(k, v)]
      | none => acc) [])

/-- `QueryOptions<Entity>` (the `deleted` toggle is declared but unused by
the source's filtering logic). -/
structure QueryOptions where
  sort : Option (List (String × Int))
  projection : Option (List String)
  deleted : Option Bool

/-- The default options `{}` of `find`. -/
def emptyOpts : QueryOptions := ⟨none, none, none⟩

/-! ## Database facade

The database state is the contents of the log file.  Each operation maps
a file to a result (and, for mutations, a new file); a `none` result is an
exception escaping the source operation (unreadable log line). -/

/-- `Database.find`. -/
def find (fts : List String) (file : List Char) (q : Query)
    (opts : QueryOptions) : Option (List Entity) :=
  (load file).map (fun entities =>
    project opts.projection (sortEntities opts.sort (filterQuery fts q entities)))

/-- `Database.insert`. -/
def insert (file : List Char) (e : Entity) : Option (List Char) :=
  flush file [e] []

/-- `Database.delete`. -/
def «delete» (fts : List String) (file : List Char) (q : Query) :
    Option (List Char) :=
  (load file).bind (fun entities => flush file [] (filterQuery fts q entities))

/-- The query `{_id: {$eq: v}}` used by the insert/find and delete
round-trip properties. -/
def idEq (v : Value) : Query :=
  [("_id", QueryVal.param (QueryParam.eq v))]

/-- The contribution of one query entry to `queryMatches` (once the
accumulator is still truthy): `$`-prefixed keys are skipped, others are
decided by their predicate. -/
def entryMatches (e : Entity) (kv : String × QueryVal) : Bool :=
  if strStartsWith kv.1.data "$".data then true
  else
    match kv.2 with
    | .param p => evalParam p (lookupField e kv.1)
    | _ => false

/-- The file contents written by `flush`, with the fold's accumulator
unrolled: each record yields a newline followed by its line. -/
def encodeTail : List Deletable → List Char
  | [] => []
  | d :: ds => '\n' :: (toLine d ++ encodeTail ds)

/-- N `insert` calls issued without awaiting each other, run through the
write serializer.  `flush` chains every mutation onto `this.lock`
(`this.lock = this.lock.then(...)`), so the queued callbacks execute
strictly in FIFO arrival order, each one's `loadAll` reading the file the
previous callback wrote; that serialized execution is this fold. -/
def runInserts (file : List Char) (es : List Entity) : Option (List Char) :=
  es.foldlM (fun f e => insert f e) file

/-! # Lemmas

## Codec round trip -/

theorem parseString_cons (c : Char) (rest : List Char) :
    parseString (c :: rest) =
      (if c = '"' then some ([], rest)
      else if c = '\\' then
        match rest with
        | [] => none
        | d :: rest2 =>
          match parseString rest2 with
          | none => none
          | some (s, r) => some (unescChar d :: s, r)
      else
        match parseString rest with
        | none => none
        | some (s, r) => some (c :: s, r)) := by
  rw [parseString.eq_def]

theorem parseString_escape (s : List Char) (rest : List Char) :
    parseString (escapeString s ++ '"' :: rest) = some (s, rest) := by
  induction s with
  | nil => simp [escapeString, parseString_cons]
  | cons c cs ih =>
    by_cases hq : c = '"'
    · subst hq
      simp [escapeString, escapeChar, parseString_cons, unescChar, ih]
    · by_cases hb : c = '\\'
      · subst hb
        simp [escapeString, escapeChar, parseString_cons, unescChar, ih]
      · by_cases hn : c = '\n'
        · subst hn
          simp [escapeString, escapeChar, parseString_cons, unescChar, ih]
        · simp [escapeString, escapeChar, hq, hb, hn, parseString_cons, ih]

theorem charToDigit_digitToChar {d : Nat} (h : d < 10) :
    charToDigit (digitToChar d) = d := by
  interval_cases d <;> rfl

theorem digitToChar_isDigit {d : Nat} (h : d < 10) :
    (digitToChar d).isDigit = true := by
  interval_cases d <;> rfl

theorem natToCharsAux_digits {fuel n : Nat} (h : n < fuel) :
    ∀ c ∈ natToCharsAux fuel n, c.isDigit = true := by
  induction fuel generalizing n with
  | zero => omega
  | succ fuel ih =>
    intro c hc
    rw [natToCharsAux] at hc
    by_cases h10 : n < 10
    · simp [h10] at hc
      subst hc
      exact digitToChar_isDigit h10
    · simp [h10] at hc
      rcases hc with hc | hc
      · exact ih (by omega) c hc
      · subst hc
        exact digitToChar_isDigit (Nat.mod_lt _ (by omega))

theorem natToCharsAux_ne_nil {fuel n : Nat} (h : n < fuel) :
    natToCharsAux fuel n ≠ [] := by
  cases fuel with
  | zero => omega
  | succ fuel =>
    rw [natToCharsAux]
    by_cases h10 : n < 10 <;> simp [h10]

theorem charsToNat_append_single (cs : List Char) (c : Char) :
    charsToNat (cs ++ [c]) = charsToNat cs * 10 + charToDigit c := by
  simp [charsToNat, List.foldl_append]

theorem charsToNat_natToCharsAux {fuel n : Nat} (h : n < fuel) :
    charsToNat (natToCharsAux fuel n) = n := by
  induction fuel generalizing n with
  | zero => omega
  | succ fuel ih =>
    rw [natToCharsAux]
    by_cases h10 : n < 10
    · simp [h10, charsToNat, charToDigit_digitToChar h10]
    · simp only [h10, if_false]
      rw [charsToNat_append_single, ih (by omega),
        charToDigit_digitToChar (Nat.mod_lt _ (by omega))]
      omega

theorem natToChars_digits (n : Nat) :
    ∀ c ∈ natToChars n, c.isDigit = true := by
  intro c hc
  rw [natToChars] at hc
  exact natToCharsAux_digits (Nat.lt_succ_self n) c hc

theorem natToChars_ne_nil (n : Nat) : natToChars n ≠ [] := by
  rw [natToChars]
  exact natToCharsAux_ne_nil (Nat.lt_succ_self n)

theorem charsToNat_natToChars (n : Nat) : charsToNat (natToChars n) = n := by
  rw [natToChars]
  exact charsToNat_natToCharsAux (Nat.lt_succ_self n)

theorem takeDigits_append {ds rest : List Char}
    (hd : ∀ c ∈ ds, c.isDigit = true) (hr : headNotDigit rest) :
    takeDigits (ds ++ rest) = (ds, rest) := by
  induction ds with
  | nil =>
    cases rest with
    | nil => rfl
    | cons c cs =>
      simp only [headNotDigit] at hr
      simp [takeDigits, hr]
  | cons c cs ih =>
    have hc : c.isDigit = true := hd c (by simp)
    have ihh := ih (fun x hx => hd x (by simp [hx]))
    simp [takeDigits, hc, ihh]

theorem parseNatNum_natToChars {rest : List Char} (n : Nat)
    (hr : headNotDigit rest) :
    parseNatNum (natToChars n ++ rest) = some (n, rest) := by
  rw [parseNatNum, takeDigits_append (natToChars_digits n) hr]
  simp [natToChars_ne_nil n, charsToNat_natToChars n]

theorem parseValue_serialize (v : Value) {rest : List Char}
    (hr : headNotDigit rest) :
    parseValue (serializeValue v ++ rest) = some (v, rest) := by
  cases v with
  | str s =>
    simp [serializeValue, parseValue, parseString_escape]
  | num i =>
    rw [serializeValue, intToChars]
    by_cases hneg : i < 0
    · simp only [hneg, if_true, List.cons_append]
      simp [parseValue, parseNatNum_natToChars _ hr]
      omega
    · simp only [hneg, if_false]
      obtain ⟨c, cs, hc⟩ : ∃ c cs, natToChars i.toNat = c :: cs := by
        cases h : natToChars i.toNat with
        | nil => exact absurd h (natToChars_ne_nil _)
        | cons c cs => exact ⟨c, cs, rfl⟩
      have hcd : c.isDigit = true := natToChars_digits _ c (by rw [hc]; simp)
      have hcq : ¬c = '"' := by
        intro h
        rw [h] at hcd
        simp at hcd
      have hcm : ¬c = '-' := by
        intro h
        rw [h] at hcd
        simp at hcd
      rw [hc, List.cons_append, parseValue, if_neg hcq, if_neg hcm,
        ← List.cons_append, ← hc, parseNatNum_natToChars _ hr]
      have h2 : ((i.toNat : Int)) = i := by omega
      simp [h2]

theorem parseFields_step (fuel : Nat) (cs : List Char) :
    parseFields fuel cs =
      (match cs with
      | [] => none
      | c :: rest =>
        if c = '"' then
          match parseString rest with
          | none => none
          | some (key, r1) =>
            match r1 with
            | [] => none
            | c1 :: r2 =>
              if c1 = ':' then
                match parseValue r2 with
                | none => none
                | some (v, r3) =>
                  match r3 with
                  | [] => none
                  | c3 :: r4 =>
                    if c3 = ',' then
                      match fuel with
                      | 0 => none
                      | fuel' + 1 =>
                        match parseFields fuel' r4 with
                        | none => none
                        | some (fs, r5) => some ((String.mk key, v) :: fs, r5)
                    else if c3 = '}' then some ([(String.mk key, v)], r4)
                    else none
              else none
        else none) := by
  rw [parseFields.eq_def]

theorem parseFields_serializeFields (e : Entity) :
    ∀ (fuel : Nat) (rest : List Char), e ≠ [] → e.length ≤ fuel + 1 →
      parseFields fuel (serializeFields e ++ '}' :: rest) = some (e, rest) := by
  induction e with
  | nil => intro fuel rest h _; exact absurd rfl h
  | cons kv tl ih =>
    intro fuel rest _ hlen
    cases tl with
    | nil =>
      obtain ⟨k, v⟩ := kv
      have hnd : headNotDigit ('}' :: rest) := by simp [headNotDigit]
      rw [serializeFields, serializeField]
      rw [parseFields_step]
      simp only [List.cons_append, List.append_assoc, if_pos rfl]
      rw [parseString_escape]
      simp only [if_pos rfl]
      rw [parseValue_serialize v hnd]
      simp
    | cons kv2 tl2 =>
      obtain ⟨k, v⟩ := kv
      have hnd : headNotDigit (',' :: (serializeFields (kv2 :: tl2) ++ '}' :: rest)) := by
        simp [headNotDigit]
      have hsf : serializeFields ((k, v) :: kv2 :: tl2)
          = serializeField (k, v) ++ ',' :: serializeFields (kv2 :: tl2) := by
        simp only [serializeFields]
      rw [hsf, serializeField]
      rw [parseFields_step]
      simp only [List.cons_append, List.append_assoc, if_pos rfl]
      rw [parseString_escape]
      simp only [if_pos rfl]
      rw [parseValue_serialize v hnd]
      cases fuel with
      | zero => simp at hlen
      | succ fuel' =>
        have := ih fuel' rest (by simp) (by simp at hlen ⊢; omega)
        simp [this]

theorem length_le_serializeFields (e : Entity) :
    e.length ≤ (serializeFields e).length := by
  induction e with
  | nil => simp [serializeFields]
  | cons kv tl ih =>
    cases tl with
    | nil => simp [serializeFields, serializeField]
    | cons kv2 tl2 =>
      have hsf : serializeFields (kv :: kv2 :: tl2)
          = serializeField kv ++ ',' :: serializeFields (kv2 :: tl2) := by
        simp only [serializeFields]
      rw [hsf, serializeField]
      simp at ih ⊢
      omega

theorem serializeFields_cons_head (kv : String × Value) (tl : List (String × Value)) :
    ∃ cs, serializeFields (kv :: tl) = '"' :: cs := by
  cases tl with
  | nil =>
    refine ⟨escapeString kv.1.data ++ '"' :: ':' :: serializeValue kv.2, ?_⟩
    rw [serializeFields, serializeField]
  | cons kv2 tl2 =>
    refine ⟨(escapeString kv.1.data ++ '"' :: ':' :: serializeValue kv.2)
      ++ ',' :: serializeFields (kv2 :: tl2), ?_⟩
    have hsf : serializeFields (kv :: kv2 :: tl2)
        = serializeField kv ++ ',' :: serializeFields (kv2 :: tl2) := by
      simp only [serializeFields]
    rw [hsf, serializeField]
    simp

theorem jsonParse_serializeEntity (e : Entity) :
    jsonParse (serializeEntity e) = some e := by
  cases e with
  | nil => rfl
  | cons kv tl =>
    obtain ⟨cs, hcs⟩ := serializeFields_cons_head kv tl
    have hsplit : serializeFields (kv :: tl) ++ ['}'] = '"' :: (cs ++ ['}']) := by
      rw [hcs]; simp
    have hq : ¬('"' : Char) = '}' := by decide
    have hparse := parseFields_serializeFields (kv :: tl)
      (serializeFields (kv :: tl) ++ ['}']).length []
      (by simp)
      (by
        have h := length_le_serializeFields (kv :: tl)
        simp at h ⊢
        omega)
    have hlist : serializeFields (kv :: tl) ++ '}' :: ([] : List Char)
        = serializeFields (kv :: tl) ++ ['}'] := rfl
    rw [hlist] at hparse
    have hpe : parseEntity (serializeEntity (kv :: tl)) = some (kv :: tl, []) := by
      rw [serializeEntity, parseEntity.eq_def]
      simp only [List.cons_append]
      rw [hsplit]
      simp only [if_pos rfl, if_neg hq]
      rw [← hsplit]
      exact hparse
    rw [jsonParse, hpe]

theorem decodeLine_toLine (d : Deletable) : decodeLine (toLine d) = some d := by
  obtain ⟨e, ex⟩ := d
  cases ex with
  | true => simp [toLine, decodeLine, jsonParse_serializeEntity]
  | false => simp [toLine, decodeLine, jsonParse_serializeEntity]

/-! ## The written file decodes back to the record list -/

theorem noNl_escapeChar (c : Char) : '\n' ∉ escapeChar c := by
  unfold escapeChar
  split_ifs with h1 h2 h3 <;> simp_all
  intro h
  exact h3 h.symm

theorem noNl_escapeString (s : List Char) : '\n' ∉ escapeString s := by
  induction s with
  | nil => simp [escapeString]
  | cons c cs ih =>
    rw [escapeString]
    intro hmem
    rcases List.mem_append.mp hmem with h | h
    · exact noNl_escapeChar c h
    · exact ih h

theorem noNl_natToChars (n : Nat) : '\n' ∉ natToChars n := by
  intro hmem
  have := natToChars_digits n _ hmem
  simp at this

theorem noNl_serializeValue (v : Value) : '\n' ∉ serializeValue v := by
  cases v with
  | num i =>
    rw [serializeValue, intToChars]
    by_cases hneg : i < 0
    · rw [if_pos hneg]
      intro hmem
      rcases List.mem_cons.mp hmem with h | h
      · exact absurd h (by decide)
      · exact noNl_natToChars _ h
    · rw [if_neg hneg]
      exact noNl_natToChars _
  | str s =>
    rw [serializeValue]
    intro hmem
    rcases List.mem_cons.mp hmem with h | h
    · exact absurd h (by decide)
    · rcases List.mem_append.mp h with h2 | h2
      · exact noNl_escapeString _ h2
      · exact absurd (List.mem_singleton.mp h2) (by decide)

theorem noNl_serializeField (kv : String × Value) :
    '\n' ∉ serializeField kv := by
  rw [serializeField]
  intro hmem
  rcases List.mem_cons.mp hmem with h | h
  · exact absurd h (by decide)
  · rcases List.mem_append.mp h with h2 | h2
    · exact noNl_escapeString _ h2
    · rcases List.mem_cons.mp h2 with h3 | h3
      · exact absurd h3 (by decide)
      · rcases List.mem_cons.mp h3 with h4 | h4
        · exact absurd h4 (by decide)
        · exact noNl_serializeValue _ h4

theorem noNl_serializeFields (e : Entity) : '\n' ∉ serializeFields e := by
  induction e with
  | nil => simp [serializeFields]
  | cons kv tl ih =>
    cases tl with
    | nil =>
      rw [serializeFields]
      exact noNl_serializeField kv
    | cons kv2 tl2 =>
      have hsf : serializeFields (kv :: kv2 :: tl2)
          = serializeField kv ++ ',' :: serializeFields (kv2 :: tl2) := by
        simp only [serializeFields]
      rw [hsf]
      intro hmem
      rcases List.mem_append.mp hmem with h | h
      · exact noNl_serializeField kv h
      · rcases List.mem_cons.mp h with h2 | h2
        · exact absurd h2 (by decide)
        · exact ih h2

theorem noNl_serializeEntity (e : Entity) : '\n' ∉ serializeEntity e := by
  rw [serializeEntity]
  intro hmem
  rcases List.mem_cons.mp hmem with h | h
  · exact absurd h (by decide)
  · rcases List.mem_append.mp h with h2 | h2
    · exact noNl_serializeFields _ h2
    · exact absurd (List.mem_singleton.mp h2) (by decide)

theorem noNl_toLine (d : Deletable) : '\n' ∉ toLine d := by
  rw [toLine]
  intro hmem
  rcases List.mem_cons.mp hmem with h | h
  · cases hex : d.«exists» <;> rw [hex] at h <;> exact absurd h (by decide)
  · exact noNl_serializeEntity _ h

theorem toLine_ne_nil (d : Deletable) : toLine d ≠ [] := by
  simp [toLine]

theorem splitOnChar_ne_nil (sep : Char) (cs : List Char) :
    splitOnChar sep cs ≠ [] := by
  induction cs with
  | nil => simp [splitOnChar]
  | cons c cs ih =>
    by_cases h : c = sep
    · simp [splitOnChar, h]
    · cases hs : splitOnChar sep cs with
      | nil => exact absurd hs ih
      | cons l ls => simp [splitOnChar, h, hs]

theorem splitOnChar_append {sep : Char} {l cs h : List Char}
    {t : List (List Char)} (hl : ¬sep ∈ l)
    (hcs : splitOnChar sep cs = h :: t) :
    splitOnChar sep (l ++ cs) = (l ++ h) :: t := by
  induction l with
  | nil => simpa using hcs
  | cons c l ih =>
    have hc : ¬c = sep := fun he => hl (by simp [he])
    have hrest : ¬sep ∈ l := fun hm => hl (by simp [hm])
    rw [List.cons_append]
    simp [splitOnChar, hc, ih hrest]

theorem foldl_encode (recs : List Deletable) (a : List Char) :
    recs.foldl (fun acc d => acc ++ '\n' :: toLine d) a = a ++ encodeTail recs := by
  induction recs generalizing a with
  | nil => simp [encodeTail]
  | cons d ds ih => simp [encodeTail, ih, List.append_assoc]

theorem encodeFile_eq (recs : List Deletable) :
    encodeFile recs = encodeTail recs := by
  rw [encodeFile, foldl_encode]
  simp

theorem splitOnChar_encodeTail (recs : List Deletable) :
    splitOnChar '\n' (encodeTail recs) = [] :: recs.map toLine := by
  induction recs with
  | nil => simp [encodeTail, splitOnChar]
  | cons d ds ih =>
    rw [encodeTail]
    have h1 : splitOnChar '\n' ('\n' :: (toLine d ++ encodeTail ds))
        = [] :: splitOnChar '\n' (toLine d ++ encodeTail ds) := by
      simp [splitOnChar]
    rw [h1, splitOnChar_append (noNl_toLine d) ih]
    simp

theorem mapM_decode (recs : List Deletable) :
    (recs.map toLine).mapM decodeLine = some recs := by
  induction recs with
  | nil => rfl
  | cons d ds ih =>
    simp only [List.map_cons, List.mapM_cons, decodeLine_toLine, ih,
      Option.pure_def, Option.bind_some]
    rfl

theorem loadAll_encodeFile (recs : List Deletable) :
    loadAll (encodeFile recs) = some recs := by
  rw [loadAll, encodeFile_eq, splitOnChar_encodeTail]
  have hfil : (([] : List Char) :: recs.map toLine).filter (fun l => l ≠ [])
      = recs.map toLine := by
    have h0 : (([] : List Char) :: recs.map toLine).filter (fun l => l ≠ [])
        = (recs.map toLine).filter (fun l => l ≠ []) := by
      simp
    rw [h0]
    exact List.filter_eq_self.mpr (fun a ha => by
      obtain ⟨d, _, rfl⟩ := List.mem_map.mp ha
      simp [toLine_ne_nil d])
  rw [hfil, mapM_decode]

theorem load_encodeFile (recs : List Deletable) :
    load (encodeFile recs) = some (liveEntities recs) := by
  rw [load, loadAll_encodeFile]
  rfl

/-! ## Query-matching lemmas -/

theorem queryMatches_eq_all (q : Query) (e : Entity) :
    queryMatches q e = q.all (entryMatches e) := by
  have aux : ∀ (l : Query) (b : Bool),
      List.foldl (fun acc kv =>
        if !acc || strStartsWith kv.1.data "$".data then acc
        else
          match kv.2 with
          | QueryVal.param p => evalParam p (lookupField e kv.1)
          | _ => false) b l
      = (b && l.all (entryMatches e)) := by
    intro l
    induction l with
    | nil => intro b; simp
    | cons kv l ih =>
      intro b
      rw [List.foldl_cons, List.all_cons, ih]
      cases b
      · simp
      · simp [entryMatches, Bool.and_assoc]
  rw [queryMatches, aux]
  simp

theorem queryMatches_sub (sub : Subquery) (e : Entity)
    (hk : ∀ kv ∈ sub, strStartsWith kv.1.data "$".data = false) :
    queryMatches (subToQuery sub) e
      = sub.all (fun kv => evalParam kv.2 (lookupField e kv.1)) := by
  rw [queryMatches_eq_all]
  induction sub with
  | nil => rfl
  | cons kv l ih =>
    rw [subToQuery, List.map_cons, List.all_cons, List.all_cons]
    have hkv := hk kv (by simp)
    rw [show entryMatches e (kv.1, QueryVal.param kv.2)
        = evalParam kv.2 (lookupField e kv.1) by
      rw [entryMatches]
      simp [hkv]]
    rw [← subToQuery, ih (fun x hx => hk x (by simp [hx]))]

theorem queryMatches_dollar_only (q : Query) (e : Entity)
    (hk : ∀ kv ∈ q, strStartsWith kv.1.data "$".data = true) :
    queryMatches q e = true := by
  rw [queryMatches_eq_all]
  rw [List.all_eq_true]
  intro kv hkv
  rw [entryMatches, if_pos (hk kv hkv)]

theorem queryMatches_idEq (v : Value) (x : Entity) :
    queryMatches (idEq v) x = decide (lookupField x "_id" = some v) := by
  rw [queryMatches_eq_all, idEq]
  simp [entryMatches, strStartsWith, evalParam]

theorem queryMatches_nil (x : Entity) : queryMatches [] x = true := rfl

/-! ## Pipeline lemmas for the concrete queries of the claims -/

theorem filterQuery_idEq (fts : List String) (v : Value) (es : List Entity) :
    filterQuery fts (idEq v) es
      = es.filter (fun x => decide (lookupField x "_id" = some v)) := by
  have hand : getSubs "$and" (idEq v) = none := rfl
  have hor : getSubs "$or" (idEq v) = none := rfl
  have htext : getTextVal (idEq v) = none := rfl
  rw [filterQuery, filterAnd, hand, filterOr, hor, filterText, htext, filterParams]
  exact List.filter_congr (fun x _ => queryMatches_idEq v x)

theorem filterQuery_nil (fts : List String) (es : List Entity) :
    filterQuery fts [] es = es := by
  have hand : getSubs "$and" ([] : Query) = none := rfl
  have hor : getSubs "$or" ([] : Query) = none := rfl
  have htext : getTextVal ([] : Query) = none := rfl
  rw [filterQuery, filterAnd, hand, filterOr, hor, filterText, htext, filterParams]
  have h : es.filter (fun e => queryMatches [] e) = es.filter (fun _ => true) :=
    List.filter_congr (fun x _ => queryMatches_nil x)
  rw [h]
  simp

/-! ## Mutation lemmas -/

theorem flushRecords_no_deletes (all : List Deletable) (ins : List Entity) :
    flushRecords all ins [] = all ++ ins.map (fun e => ⟨e, true⟩) := by
  rw [flushRecords]
  simp

theorem insert_encode {file : List Char} {recs : List Deletable}
    (e : Entity) (h : loadAll file = some recs) :
    insert file e = some (encodeFile (recs ++ [⟨e, true⟩])) := by
  rw [insert, flush, h, Option.map]
  rw [flushRecords_no_deletes]
  rfl

theorem liveEntities_append (a b : List Deletable) :
    liveEntities (a ++ b) = liveEntities a ++ liveEntities b := by
  simp [liveEntities, List.filter_append]

theorem liveEntities_insert (e : Entity) :
    liveEntities [⟨e, true⟩] = [e] := rfl

theorem find_emptyOpts {fts : List String} {file : List Char}
    {recs : List Deletable} (q : Query) (h : loadAll file = some recs) :
    find fts file q emptyOpts
      = some (filterQuery fts q (liveEntities recs)) := by
  rw [find, load, h]
  rfl

theorem flushRecords_def (all : List Deletable) (ins dels : List Entity) :
    flushRecords all ins dels
      = (all.map (fun d =>
          if lookupField d.entity "_id" ∈ dels.map (fun e => lookupField e "_id")
          then ⟨d.entity, false⟩ else d))
        ++ ins.map (fun e => ⟨e, true⟩) := by
  rw [flushRecords]

theorem delete_encode {fts : List String} {file : List Char}
    {recs : List Deletable} (q : Query) (h : loadAll file = some recs) :
    «delete» fts file q
      = some (encodeFile (flushRecords recs []
          (filterQuery fts q (liveEntities recs)))) := by
  rw [«delete», load, h]
  have h1 : Option.map liveEntities (some recs) = some (liveEntities recs) := rfl
  rw [h1]
  have h2 : (some (liveEntities recs)).bind
      (fun entities => flush file [] (filterQuery fts q entities))
      = flush file [] (filterQuery fts q (liveEntities recs)) := rfl
  rw [h2, flush, h]
  rfl

/-! # Claims -/

/-- C5: encoding a Stored Record (entity plus liveness tag) to its log
line with `toLine` and decoding that line back, as `loadAll` does, yields
a record equal field-for-field to the original, including the liveness
tag. -/
theorem C5_codec_roundtrip (d : Deletable) : decodeLine (toLine d) = some d :=
  decodeLine_toLine d

/-- C1: inserting an entity `e` into a store whose log has no line bearing
`e`'s identifier makes `find {_id: {$eq: e._id}}` return exactly `[e]`. -/
theorem C1_insert_find (fts : List String) (file : List Char)
    (recs : List Deletable) (e : Entity) (v : Value)
    (hload : loadAll file = some recs)
    (hid : lookupField e "_id" = some v)
    (hfresh : ∀ r ∈ recs, lookupField r.entity "_id" ≠ some v) :
    ∃ file2, insert file e = some file2 ∧
      find fts file2 (idEq v) emptyOpts = some [e] := by
  refine ⟨_, insert_encode e hload, ?_⟩
  rw [find_emptyOpts _ (loadAll_encodeFile _)]
  rw [liveEntities_append, liveEntities_insert, filterQuery_idEq,
    List.filter_append]
  have h1 : (liveEntities recs).filter
      (fun x => decide (lookupField x "_id" = some v)) = [] := by
    rw [List.filter_eq_nil_iff]
    intro a ha
    rw [liveEntities] at ha
    obtain ⟨r, hr, rfl⟩ := List.mem_map.mp ha
    have hrec : r ∈ recs := (List.mem_filter.mp hr).1
    simp [hfresh r hrec]
  rw [h1]
  simp [hid]

/-- Witness for C1 at a concrete store and entity. -/
theorem C1_insert_find_witness :
    loadAll [] = some []
    ∧ lookupField [("_id", Value.num 7)] "_id" = some (Value.num 7)
    ∧ (∀ r ∈ ([] : List Deletable), lookupField r.entity "_id" ≠ some (Value.num 7))
    ∧ ∃ file2, insert [] [("_id", Value.num 7)] = some file2 ∧
        find [] file2 (idEq (Value.num 7)) emptyOpts = some [[("_id", Value.num 7)]] :=
  ⟨by decide, by decide, by decide,
    C1_insert_find [] [] [] [("_id", Value.num 7)] (Value.num 7)
      (by decide) (by decide) (by decide)⟩

/-- C2: after `insert(e)` and then `delete({_id: {$eq: e._id}})`,
`find({_id: {$eq: e._id}})` returns the empty list. -/
theorem C2_delete_hides (fts : List String) (file : List Char)
    (recs : List Deletable) (e : Entity) (v : Value)
    (hload : loadAll file = some recs)
    (hid : lookupField e "_id" = some v) :
    ∃ f1 f2, insert file e = some f1 ∧
      «delete» fts f1 (idEq v) = some f2 ∧
      find fts f2 (idEq v) emptyOpts = some [] := by
  refine ⟨_, _, insert_encode e hload,
    delete_encode (idEq v) (loadAll_encodeFile (recs ++ [⟨e, true⟩])), ?_⟩
  rw [find_emptyOpts _ (loadAll_encodeFile _)]
  rw [filterQuery_idEq]
  have hmemE : e ∈ liveEntities (recs ++ [⟨e, true⟩]) := by
    rw [liveEntities_append, liveEntities_insert]
    simp
  have hEmatched : e ∈ filterQuery fts (idEq v) (liveEntities (recs ++ [⟨e, true⟩])) := by
    rw [filterQuery_idEq, List.mem_filter]
    exact ⟨hmemE, by simp [hid]⟩
  have hvin : some v ∈ (filterQuery fts (idEq v)
      (liveEntities (recs ++ [⟨e, true⟩]))).map (fun x => lookupField x "_id") :=
    List.mem_map.mpr ⟨e, hEmatched, hid⟩
  have hnil : (liveEntities (flushRecords (recs ++ [⟨e, true⟩]) []
      (filterQuery fts (idEq v) (liveEntities (recs ++ [⟨e, true⟩]))))).filter
      (fun x => decide (lookupField x "_id" = some v)) = [] := by
    rw [List.filter_eq_nil_iff]
    intro x hx
    rw [flushRecords_def] at hx
    simp only [List.map_nil, List.append_nil] at hx
    rw [liveEntities] at hx
    obtain ⟨d', hd', rfl⟩ := List.mem_map.mp hx
    have hd'2 := List.mem_filter.mp hd'
    obtain ⟨d, _, hflip⟩ := List.mem_map.mp hd'2.1
    by_cases hin : lookupField d.entity "_id" ∈ (filterQuery fts (idEq v)
        (liveEntities (recs ++ [⟨e, true⟩]))).map (fun x => lookupField x "_id")
    · rw [if_pos hin] at hflip
      rw [← hflip] at hd'2
      simp at hd'2
    · rw [if_neg hin] at hflip
      subst hflip
      simp only [decide_eq_true_eq]
      intro heq
      rw [heq] at hin
      exact hin hvin
  rw [hnil]

/-- Witness for C2 at a concrete store and entity. -/
theorem C2_delete_hides_witness :
    loadAll [] = some []
    ∧ lookupField [("_id", Value.num 3)] "_id" = some (Value.num 3)
    ∧ ∃ f1 f2, insert [] [("_id", Value.num 3)] = some f1 ∧
        «delete» [] f1 (idEq (Value.num 3)) = some f2 ∧
        find [] f2 (idEq (Value.num 3)) emptyOpts = some [] :=
  ⟨by decide, by decide,
    C2_delete_hides [] [] [] [("_id", Value.num 3)] (Value.num 3)
      (by decide) (by decide)⟩

theorem liveEntities_map_true (es : List Entity) :
    liveEntities (es.map (fun e => ⟨e, true⟩)) = es := by
  induction es with
  | nil => rfl
  | cons e es ih =>
    rw [List.map_cons, show liveEntities (⟨e, true⟩ :: es.map (fun e => ⟨e, true⟩))
      = e :: liveEntities (es.map (fun e => ⟨e, true⟩)) from by
        rw [liveEntities, liveEntities, List.filter_cons_of_pos rfl, List.map_cons],
      ih]

theorem runInserts_encode (es : List Entity) (recs : List Deletable) :
    runInserts (encodeFile recs) es
      = some (encodeFile (recs ++ es.map (fun e => ⟨e, true⟩))) := by
  induction es generalizing recs with
  | nil => simp [runInserts]
  | cons e es ih =>
    rw [runInserts, List.foldlM_cons, insert_encode e (loadAll_encodeFile recs)]
    show runInserts (encodeFile (recs ++ [⟨e, true⟩])) es = _
    rw [ih]
    simp

/-- C3: N `insert` calls with distinct identifiers issued concurrently
without awaiting each other execute as the FIFO queue of load-mutate-
rewrite cycles built by the `this.lock` promise chain (modelled by
`runInserts`: each mutation's load reads the previous mutation's rewrite),
and a subsequent `find({})` returns all N entities with no lost entries:
its result is exactly the prior live entities followed by all N inserted
entities. -/
theorem C3_serialized_inserts (fts : List String) (file : List Char)
    (recs : List Deletable) (es : List Entity)
    (hload : loadAll file = some recs)
    (hdistinct : es.Pairwise
      (fun a b => lookupField a "_id" ≠ lookupField b "_id")) :
    ∃ f2, runInserts file es = some f2 ∧
      find fts f2 ([] : Query) emptyOpts = some (liveEntities recs ++ es) := by
  cases es with
  | nil =>
    refine ⟨file, rfl, ?_⟩
    rw [find_emptyOpts _ hload, filterQuery_nil]
    simp
  | cons e es =>
    have h1 : runInserts file (e :: es)
        = some (encodeFile ((recs ++ [⟨e, true⟩])
            ++ es.map (fun x => ⟨x, true⟩))) := by
      rw [runInserts, List.foldlM_cons, insert_encode e hload]
      show runInserts (encodeFile (recs ++ [⟨e, true⟩])) es = _
      rw [runInserts_encode]
    refine ⟨_, h1, ?_⟩
    rw [find_emptyOpts _ (loadAll_encodeFile _), filterQuery_nil]
    rw [liveEntities_append, liveEntities_append, liveEntities_insert,
      liveEntities_map_true]
    simp

/-- Witness for C3: two concurrent inserts with distinct ids on an empty
store. -/
theorem C3_serialized_inserts_witness :
    loadAll [] = some []
    ∧ ([[("_id", Value.num 1)], [("_id", Value.num 2)]] : List Entity).Pairwise
        (fun a b => lookupField a "_id" ≠ lookupField b "_id")
    ∧ ∃ f2, runInserts [] [[("_id", Value.num 1)], [("_id", Value.num 2)]] = some f2 ∧
        find [] f2 ([] : Query) emptyOpts
          = some (liveEntities [] ++ [[("_id", Value.num 1)], [("_id", Value.num 2)]]) :=
  ⟨by decide, by decide,
    C3_serialized_inserts [] [] [] [[("_id", Value.num 1)], [("_id", Value.num 2)]]
      (by decide) (by decide)⟩

/-- C9: a `delete` whose query matches zero live entities succeeds and is
a no-op: every later `find` observes exactly what it observed before. -/
theorem C9_idempotent_delete (fts : List String) (file : List Char)
    (recs : List Deletable) (q : Query)
    (hload : loadAll file = some recs)
    (hmatch : filterQuery fts q (liveEntities recs) = []) :
    ∃ f2, «delete» fts file q = some f2 ∧
      ∀ (fts2 : List String) (q2 : Query) (opts : QueryOptions),
        find fts2 f2 q2 opts = find fts2 file q2 opts := by
  refine ⟨_, delete_encode q hload, ?_⟩
  intro fts2 q2 opts
  rw [hmatch]
  rw [show flushRecords recs [] [] = recs from by rw [flushRecords_def]; simp]
  simp only [find, load]
  rw [hload, loadAll_encodeFile]

/-- Witness for C9: deleting an id absent from a one-record store. -/
theorem C9_idempotent_delete_witness :
    loadAll (encodeFile [⟨[("_id", Value.num 1)], true⟩])
        = some [⟨[("_id", Value.num 1)], true⟩]
    ∧ filterQuery [] (idEq (Value.num 2))
        (liveEntities [⟨[("_id", Value.num 1)], true⟩]) = []
    ∧ ∃ f2, «delete» [] (encodeFile [⟨[("_id", Value.num 1)], true⟩])
          (idEq (Value.num 2)) = some f2 ∧
        ∀ (fts2 : List String) (q2 : Query) (opts : QueryOptions),
          find fts2 f2 q2 opts
            = find fts2 (encodeFile [⟨[("_id", Value.num 1)], true⟩]) q2 opts :=
  ⟨by decide, by decide,
    C9_idempotent_delete [] (encodeFile [⟨[("_id", Value.num 1)], true⟩])
      [⟨[("_id", Value.num 1)], true⟩] (idEq (Value.num 2))
      (by decide) (by decide)⟩

theorem liveEntities_map_false (recs : List Deletable) :
    liveEntities (recs.map (fun d => ⟨d.entity, false⟩)) = [] := by
  rw [liveEntities]
  have h : (recs.map (fun d => (⟨d.entity, false⟩ : Deletable))).filter
      (fun d => d.«exists») = [] := by
    rw [List.filter_eq_nil_iff]
    intro a ha
    obtain ⟨d, _, rfl⟩ := List.mem_map.mp ha
    simp
  rw [h, List.map_nil]

/-- C10: a query all of whose keys are `$`-prefixed — the empty query `{}`
included — passes the plain-predicate matcher for every entity (the fold
starts at `true` and skips `$` keys); hence `find({})` returns every live
entity and `delete({})` flips every live record to a tombstone, leaving no
live entity. -/
theorem C10_dollar_keys_accepted :
    (∀ (q : Query) (e : Entity),
        (∀ kv ∈ q, strStartsWith kv.1.data "$".data = true) →
        queryMatches q e = true)
    ∧ (∀ (fts : List String) (file : List Char) (recs : List Deletable),
        loadAll file = some recs →
          find fts file ([] : Query) emptyOpts = some (liveEntities recs)
          ∧ «delete» fts file ([] : Query)
              = some (encodeFile (recs.map (fun d => ⟨d.entity, false⟩)))
          ∧ load (encodeFile (recs.map (fun d => ⟨d.entity, false⟩)))
              = some []) := by
  refine ⟨queryMatches_dollar_only, ?_⟩
  intro fts file recs hload
  refine ⟨?_, ?_, ?_⟩
  · rw [find_emptyOpts _ hload, filterQuery_nil]
  · rw [delete_encode ([] : Query) hload, filterQuery_nil, flushRecords_def]
    simp only [List.map_nil, List.append_nil]
    congr 1
    apply congrArg
    apply List.map_congr_left
    intro d hd
    by_cases hex : d.«exists» = true
    · have hmem : d.entity ∈ liveEntities recs := by
        rw [liveEntities]
        exact List.mem_map.mpr ⟨d, List.mem_filter.mpr ⟨hd, hex⟩, rfl⟩
      have hin : lookupField d.entity "_id"
          ∈ (liveEntities recs).map (fun e => lookupField e "_id") :=
        List.mem_map.mpr ⟨d.entity, hmem, rfl⟩
      rw [if_pos hin]
    · by_cases hin : lookupField d.entity "_id"
          ∈ (liveEntities recs).map (fun e => lookupField e "_id")
      · rw [if_pos hin]
      · rw [if_neg hin]
        obtain ⟨de, dex⟩ := d
        simp at hex
        rw [hex]
  · rw [load_encodeFile, liveEntities_map_false]

/-- Witness for C10 on a concrete one-record store and a `$`-keyed query. -/
theorem C10_dollar_keys_accepted_witness :
    (∀ kv ∈ ([("$or", QueryVal.subs [[]])] : Query),
        strStartsWith kv.1.data "$".data = true)
    ∧ queryMatches [("$or", QueryVal.subs [[]])] [("_id", Value.num 5)] = true
    ∧ loadAll (encodeFile [⟨[("_id", Value.num 5)], true⟩])
        = some [⟨[("_id", Value.num 5)], true⟩]
    ∧ (find [] (encodeFile [⟨[("_id", Value.num 5)], true⟩]) ([] : Query) emptyOpts
          = some (liveEntities [⟨[("_id", Value.num 5)], true⟩])
        ∧ «delete» [] (encodeFile [⟨[("_id", Value.num 5)], true⟩]) ([] : Query)
            = some (encodeFile (([⟨[("_id", Value.num 5)], true⟩] : List Deletable).map
                (fun d => ⟨d.entity, false⟩)))
        ∧ load (encodeFile (([⟨[("_id", Value.num 5)], true⟩] : List Deletable).map
                (fun d => ⟨d.entity, false⟩)))
            = some []) :=
  ⟨by decide,
    C10_dollar_keys_accepted.1 [("$or", QueryVal.subs [[]])]
      [("_id", Value.num 5)] (by decide),
    by decide,
    C10_dollar_keys_accepted.2 [] (encodeFile [⟨[("_id", Value.num 5)], true⟩])
      [⟨[("_id", Value.num 5)], true⟩] (by decide)⟩

/-- C4 counterexample: on a store holding the single live line
`E{"_id":1}`, `delete({_id: {$eq: 1}})` rewrites the file to the single
line `D{"_id":1}`: the line that was present before the delete is no
longer among the file's lines (it was rewritten in place), and the file
still has exactly one line, so no tombstone line was appended to the prior
lines. -/
theorem C4_counterexample :
    «delete» [] (encodeFile [⟨[("_id", Value.num 1)], true⟩]) (idEq (Value.num 1))
      = some (encodeFile [⟨[("_id", Value.num 1)], false⟩])
    ∧ toLine ⟨[("_id", Value.num 1)], true⟩
        ∈ (splitOnChar '\n' (encodeFile [⟨[("_id", Value.num 1)], true⟩])).filter
            (fun l => l ≠ [])
    ∧ ¬toLine ⟨[("_id", Value.num 1)], true⟩
        ∈ (splitOnChar '\n' (encodeFile [⟨[("_id", Value.num 1)], false⟩])).filter
            (fun l => l ≠ [])
    ∧ ((splitOnChar '\n' (encodeFile [⟨[("_id", Value.num 1)], false⟩])).filter
          (fun l => l ≠ [])).length = 1 := by
  decide

/-- C4 (amended): `delete` removes no lines and appends no tombstone
lines; it rewrites the whole file from the loaded records, re-emitting
every line in its original position with its entity content unchanged,
except that a line whose identifier matches the query has its liveness
tag flipped to tombstoned. -/
theorem C4_amended_delete_rewrites (fts : List String)
    (recs : List Deletable) (q : Query) :
    «delete» fts (encodeFile recs) q
      = some (encodeFile (recs.map (fun d =>
          if lookupField d.entity "_id"
              ∈ (filterQuery fts q (liveEntities recs)).map
                  (fun e => lookupField e "_id")
          then ⟨d.entity, false⟩ else d))) := by
  rw [delete_encode q (loadAll_encodeFile recs), flushRecords_def]
  simp

/-- C6: with a `$or` operator present, an entity passes the `$or` stage
iff at least one `$or` sub-query has every one of its field predicates
satisfied by the entity; satisfying only part of a sub-query's predicates
does not make that branch count. -/
theorem C6_or_full_match (q : Query) (subs : List Subquery) (e : Entity)
    (es : List Entity)
    (hq : getSubs "$or" q = some subs)
    (hkeys : ∀ sub ∈ subs, ∀ kv ∈ sub, strStartsWith kv.1.data "$".data = false)
    (he : e ∈ es) :
    (e ∈ filterOr q es
      ↔ ∃ sub ∈ subs, ∀ kv ∈ sub,
          evalParam kv.2 (lookupField e kv.1) = true) := by
  rw [filterOr, hq, List.mem_filter]
  constructor
  · rintro ⟨-, hfind⟩
    obtain ⟨sub, hsub, hp⟩ := List.find?_isSome.mp hfind
    rw [queryMatches_sub sub e (hkeys sub hsub), List.all_eq_true] at hp
    exact ⟨sub, hsub, hp⟩
  · rintro ⟨sub, hsub, hall⟩
    refine ⟨he, List.find?_isSome.mpr ⟨sub, hsub, ?_⟩⟩
    rw [queryMatches_sub sub e (hkeys sub hsub), List.all_eq_true]
    exact hall

/-- Witness for C6: `$or: [{a: {$eq: 1}, b: {$eq: 2}}]`; the entity with
`a = 1, b = 3` satisfies only one of the branch's two predicates and is
rejected, while the entity with `a = 1, b = 2` is kept. -/
theorem C6_or_full_match_witness :
    getSubs "$or" [("$or", QueryVal.subs
        [[("a", QueryParam.eq (Value.num 1)), ("b", QueryParam.eq (Value.num 2))]])]
      = some [[("a", QueryParam.eq (Value.num 1)), ("b", QueryParam.eq (Value.num 2))]]
    ∧ (∀ sub ∈ [[("a", QueryParam.eq (Value.num 1)), ("b", QueryParam.eq (Value.num 2))]],
        ∀ kv ∈ sub, strStartsWith kv.1.data "$".data = false)
    ∧ [("a", Value.num 1), ("b", Value.num 3)]
        ∈ [[("a", Value.num 1), ("b", Value.num 3)]]
    ∧ ([("a", Value.num 1), ("b", Value.num 3)]
        ∈ filterOr [("$or", QueryVal.subs
            [[("a", QueryParam.eq (Value.num 1)), ("b", QueryParam.eq (Value.num 2))]])]
          [[("a", Value.num 1), ("b", Value.num 3)]]
      ↔ ∃ sub ∈ [[("a", QueryParam.eq (Value.num 1)), ("b", QueryParam.eq (Value.num 2))]],
          ∀ kv ∈ sub, evalParam kv.2
            (lookupField [("a", Value.num 1), ("b", Value.num 3)] kv.1) = true)
    ∧ filterOr [("$or", QueryVal.subs
          [[("a", QueryParam.eq (Value.num 1)), ("b", QueryParam.eq (Value.num 2))]])]
        [[("a", Value.num 1), ("b", Value.num 3)]] = []
    ∧ filterOr [("$or", QueryVal.subs
          [[("a", QueryParam.eq (Value.num 1)), ("b", QueryParam.eq (Value.num 2))]])]
        [[("a", Value.num 1), ("b", Value.num 2)]]
      = [[("a", Value.num 1), ("b", Value.num 2)]] :=
  ⟨by decide, by decide, by decide,
    C6_or_full_match _ _ _ _ (by decide) (by decide) (by decide),
    by decide, by decide⟩

theorem compileWordChar_wordChar {c : Char} (hc : isWordChar c = true) :
    compileWordChar c = some (RegexAtom.lit c) := by
  have h1 : ¬c = '.' := by
    intro h
    rw [h] at hc
    exact absurd hc (by decide)
  have h2 : regexSpecial c = false := by
    cases hs : regexSpecial c
    · rfl
    · exfalso
      simp only [regexSpecial, List.mem_cons, List.not_mem_nil, or_false,
        decide_eq_true_eq] at hs
      rcases hs with h | h | h | h | h | h | h | h | h | h | h | h | h <;>
        (rw [h] at hc; exact absurd hc (by decide))
  rw [compileWordChar, if_neg h1, h2]
  rfl

theorem compileWord_of_wordChars {w : List Char}
    (hw : ∀ c ∈ w, isWordChar c = true) :
    compileWord w = some (w.map RegexAtom.lit) := by
  induction w with
  | nil => rfl
  | cons c cs ih =>
    rw [compileWord, List.mapM_cons, compileWordChar_wordChar (hw c (by simp)),
      show (cs.mapM compileWordChar) = compileWord cs from rfl,
      ih (fun x hx => hw x (by simp [hx]))]
    rfl

theorem matchAtoms_map_lit (w cs : List Char) :
    matchAtoms (w.map RegexAtom.lit) cs = (cs.take w.length = w : Bool) := by
  induction w generalizing cs with
  | nil => simp [matchAtoms]
  | cons a w ih =>
    cases cs with
    | nil => simp [matchAtoms]
    | cons c cs =>
      rw [List.map_cons]
      by_cases hca : c = a
      · subst hca
        simp [matchAtoms, atomMatches, ih]
      · simp [matchAtoms, atomMatches, hca]

/-- C7 counterexample: the field valued `"a cats sat"` does not contain
the word `"cat."` as a whole-word match, yet the source keeps the entity
for `$text: "cat."`: the word is interpolated into `\b...\b` unescaped,
so its `.` is the regex wildcard and matches the `s` of `cats`. -/
theorem C7_counterexample :
    filterText ["t"] [("$text", QueryVal.text "cat.")]
        [[("t", Value.str "a cats sat")]]
      = [[("t", Value.str "a cats sat")]]
    ∧ wholeWordMatch (lowerData ("a cats sat" : String).data)
        (lowerData ("cat." : String).data) = false := by
  decide

/-- C7 (amended): with a nonempty `$text` whose space-separated words lie
in the modelled pattern fragment, an entity passes the `$text` stage iff
every word of the lowercased text, read as the `\b`-delimited pattern the
source builds by unescaped interpolation (so `.` is the any-character
wildcard, not a literal), matches some configured full-text-search field
of the entity; and for words consisting only of word characters (letters,
digits, underscore) the pattern test coincides with the literal
whole-word containment the original claim describes — in particular
`"a cat sat"` still matches `$text: "cat"` and not `$text: "ca"`. -/
theorem C7_text_pattern_match :
    (∀ (fts : List String) (q : Query) (t : String) (e : Entity)
        (es : List Entity),
        getTextVal q = some t → ¬t = "" →
        (∀ w ∈ splitOnChar ' ' (lowerData t.data),
          (compileWord w).isSome = true) →
        e ∈ es →
        (e ∈ filterText fts q es
          ↔ ∀ w ∈ splitOnChar ' ' (lowerData t.data),
              ∃ f ∈ fts, textFieldMatches e f w = true))
    ∧ (∀ (hay w : List Char), (∀ c ∈ w, isWordChar c = true) →
        (match compileWord w with
          | some pat => regexTest pat hay
          | none => false) = wholeWordMatch hay w) := by
  constructor
  · intro fts q t e es ht ht0 _ he
    rw [filterText, ht]
    show (e ∈ if t = "" then es
        else List.filter (fun x => (splitOnChar ' ' (lowerData t.data)).all
          fun w => fts.any fun f => textFieldMatches x f w) es) ↔ _
    rw [if_neg ht0, List.mem_filter]
    constructor
    · rintro ⟨-, hall⟩
      rw [List.all_eq_true] at hall
      intro w hw
      exact List.any_eq_true.mp (hall w hw)
    · intro h
      refine ⟨he, ?_⟩
      rw [List.all_eq_true]
      intro w hw
      exact List.any_eq_true.mpr (h w hw)
  · intro hay w hw
    rw [compileWord_of_wordChars hw]
    show regexTest (w.map RegexAtom.lit) hay = wholeWordMatch hay w
    rw [regexTest, wholeWordMatch]
    apply congrArg
    funext i
    rw [matchAtoms_map_lit, List.length_map]

/-- Witness for C7: the pattern characterization instantiated at
`$text: "cat."` against the field `"a cats sat"` (where the wildcard
matters), and the literal coincidence instantiated at the word `"cat"`
against `"a cat sat"`; concrete checks include the spec's `"cat"` /
`"ca"` examples. -/
theorem C7_text_pattern_match_witness :
    getTextVal [("$text", QueryVal.text "cat.")] = some "cat."
    ∧ ¬("cat." : String) = ""
    ∧ (∀ w ∈ splitOnChar ' ' (lowerData ("cat." : String).data),
        (compileWord w).isSome = true)
    ∧ [("t", Value.str "a cats sat")] ∈ [[("t", Value.str "a cats sat")]]
    ∧ ([("t", Value.str "a cats sat")]
        ∈ filterText ["t"] [("$text", QueryVal.text "cat.")]
            [[("t", Value.str "a cats sat")]]
      ↔ ∀ w ∈ splitOnChar ' ' (lowerData ("cat." : String).data),
          ∃ f ∈ ["t"], textFieldMatches [("t", Value.str "a cats sat")] f w = true)
    ∧ (∀ c ∈ ("cat" : String).data, isWordChar c = true)
    ∧ (match compileWord ("cat" : String).data with
        | some pat => regexTest pat (lowerData ("a cat sat" : String).data)
        | none => false)
      = wholeWordMatch (lowerData ("a cat sat" : String).data) ("cat" : String).data
    ∧ filterText ["t"] [("$text", QueryVal.text "cat")]
        [[("t", Value.str "a cat sat")]] = [[("t", Value.str "a cat sat")]]
    ∧ filterText ["t"] [("$text", QueryVal.text "ca")]
        [[("t", Value.str "a cat sat")]] = [] :=
  ⟨by decide, by decide, by decide, by decide,
    C7_text_pattern_match.1 ["t"] _ "cat." _ _
      (by decide) (by decide) (by decide) (by decide),
    by decide,
    C7_text_pattern_match.2 (lowerData ("a cat sat" : String).data)
      ("cat" : String).data (by decide),
    by decide, by decide⟩

theorem compareEntities_stay (a b : Entity) (l : List (String × Int))
    (acc : Int) (hacc : ¬acc = 0) :
    l.foldl (fun acc kv =>
      if acc ≠ 0 || lookupField a kv.1 = lookupField b kv.1 then acc
      else if jsGtO (lookupField a kv.1) (lookupField b kv.1) then kv.2
      else if jsLtO (lookupField a kv.1) (lookupField b kv.1) then -kv.2
      else 0) acc = acc := by
  induction l with
  | nil => rfl
  | cons kv l ih =>
    rw [List.foldl_cons]
    have hc : (decide (acc ≠ 0)
        || decide (lookupField a kv.1 = lookupField b kv.1)) = true := by
      simp [hacc]
    rw [if_pos hc, ih]

/-- C8: the sort comparator walks the sort mapping's fields in order: the
first field whose two values differ decides the comparison with that
field's direction (`>` gives the direction, `<` its negation), equal
values defer to the next field; and the spec's example
`{_id:1, a:1, b:2}`, `{_id:2, a:1, b:1}` sorted by `{a: 1, b: -1}` comes
out as `[id 1, id 2]`. -/
theorem C8_sort_tie_break :
    (∀ (f : String) (d : Int) (rest : List (String × Int)) (a b : Entity),
        (d = 1 ∨ d = -1) →
        compareEntities ((f, d) :: rest) a b
          = (if lookupField a f = lookupField b f
            then compareEntities rest a b
            else if jsGtO (lookupField a f) (lookupField b f) then d
            else if jsLtO (lookupField a f) (lookupField b f) then -d
            else compareEntities rest a b))
    ∧ sortEntities (some [("a", 1), ("b", -1)])
        [[("_id", Value.num 1), ("a", Value.num 1), ("b", Value.num 2)],
         [("_id", Value.num 2), ("a", Value.num 1), ("b", Value.num 1)]]
      = [[("_id", Value.num 1), ("a", Value.num 1), ("b", Value.num 2)],
         [("_id", Value.num 2), ("a", Value.num 1), ("b", Value.num 1)]] := by
  constructor
  · intro f d rest a b hd
    have hd0 : ¬d = 0 := by rcases hd with rfl | rfl <;> decide
    have hd0n : ¬(-d) = 0 := by rcases hd with rfl | rfl <;> decide
    rw [compareEntities, List.foldl_cons]
    by_cases heq : lookupField a f = lookupField b f
    · have hc : (decide ((0 : Int) ≠ 0)
          || decide (lookupField a f = lookupField b f)) = true := by
        simp [heq]
      rw [if_pos hc, if_pos heq, compareEntities]
    · have hc : (decide ((0 : Int) ≠ 0)
          || decide (lookupField a f = lookupField b f)) = false := by
        simp [heq]
      rw [if_neg (by rw [hc]; exact Bool.false_ne_true), if_neg heq]
      by_cases hgt : jsGtO (lookupField a f) (lookupField b f) = true
      · rw [if_pos hgt, if_pos hgt, compareEntities_stay a b rest d hd0]
      · rw [if_neg hgt, if_neg hgt]
        by_cases hlt : jsLtO (lookupField a f) (lookupField b f) = true
        · rw [if_pos hlt, if_pos hlt, compareEntities_stay a b rest (-d) hd0n]
        · rw [if_neg hlt, if_neg hlt, compareEntities]
  · decide

/-- Witness for C8: the recurrence instantiated at the example's second
sort field (`b`, direction `-1`). -/
theorem C8_sort_tie_break_witness :
    ((-1 : Int) = 1 ∨ (-1 : Int) = -1)
    ∧ compareEntities [("b", -1)]
        [("_id", Value.num 1), ("a", Value.num 1), ("b", Value.num 2)]
        [("_id", Value.num 2), ("a", Value.num 1), ("b", Value.num 1)]
      = (if lookupField [("_id", Value.num 1), ("a", Value.num 1), ("b", Value.num 2)] "b"
            = lookupField [("_id", Value.num 2), ("a", Value.num 1), ("b", Value.num 1)] "b"
        then compareEntities []
          [("_id", Value.num 1), ("a", Value.num 1), ("b", Value.num 2)]
          [("_id", Value.num 2), ("a", Value.num 1), ("b", Value.num 1)]
        else if jsGtO
            (lookupField [("_id", Value.num 1), ("a", Value.num 1), ("b", Value.num 2)] "b")
            (lookupField [("_id", Value.num 2), ("a", Value.num 1), ("b", Value.num 1)] "b")
          then (-1 : Int)
        else if jsLtO
            (lookupField [("_id", Value.num 1), ("a", Value.num 1), ("b", Value.num 2)] "b")
            (lookupField [("_id", Value.num 2), ("a", Value.num 1), ("b", Value.num 1)] "b")
          then -(-1 : Int)
        else compareEntities []
          [("_id", Value.num 1), ("a", Value.num 1), ("b", Value.num 2)]
          [("_id", Value.num 2), ("a", Value.num 1), ("b", Value.num 1)]) :=
  ⟨Or.inr rfl,
    C8_sort_tie_break.1 "b" (-1) []
      [("_id", Value.num 1), ("a", Value.num 1), ("b", Value.num 2)]
      [("_id", Value.num 2), ("a", Value.num 1), ("b", Value.num 1)]
      (Or.inr rfl)⟩

end DB

